import Mathlib

/-!
Verification of the Porymusic MIDI editor core against its specification.

The Python source is shallowly embedded:
* `models.py` — `NoteEvent`, `MidiProject` and its channel mutations.
  Python dicts are embedded as insertion-ordered association lists with
  the dict operations `dictGet` / `dictSet` (replace-in-place or append)
  / `dictPop` (remove the key); Python `set` values are lists used only
  through membership.  Python `int` is `Int`.
* `midi_io.py` — the decoder `load_midi_as_notes` (note reconstruction
  from delta-timed messages) and the encoder `save_project_to_midi`
  (warnings, channel filtering, and the sorted absolute-time event list
  that the single output track serializes in order).
* `midi_init_injector.py` — `inject_init_events` over an embedded
  message-list representation of a MIDI file.
* `drum_remap.py` — the GM→drumset category remapper.
-/

/-- One sounded note (`models.py`, class `NoteEvent`). -/
structure NoteEvent where
  start_tick : Int
  end_tick : Int
  pitch : Int
  velocity : Int
  channel : Int
  track_index : Int := 0
deriving DecidableEq, Repr

/-- `NoteEvent.duration` from `models.py`. -/
def NoteEvent.duration (n : NoteEvent) : Int := max 0 (n.end_tick - n.start_tick)

/-- Python `dict` lookup (`d.get(k)`); first matching key wins, as association
lists built by the operations below keep at most one entry per key. -/
def dictGet {κ α : Type} [DecidableEq κ] (m : List (κ × α)) (k : κ) : Option α :=
  match m with
  | [] => none
  | (k', v) :: rest => if k = k' then some v else dictGet rest k

/-- Python `dict` assignment `d[k] = v`: replaces the value in place if the key
exists (keeping the key's position, as Python dicts do), else appends. -/
def dictSet {κ α : Type} [DecidableEq κ] (m : List (κ × α)) (k : κ) (v : α) : List (κ × α) :=
  match m with
  | [] => [(k, v)]
  | (k', v') :: rest => if k' = k then (k, v) :: rest else (k', v') :: dictSet rest k v

/-- Python `d.pop(k, None)`: removes the entry for `k` if present. -/
def dictPop {κ α : Type} [DecidableEq κ] (m : List (κ × α)) (k : κ) : List (κ × α) :=
  m.filter fun p => decide (p.1 ≠ k)

/-- The whole editable song (`models.py`, class `MidiProject`). -/
structure MidiProject where
  ticks_per_beat : Int
  notes : List NoteEvent
  channel_instrument_id : List (Int × Int)
  tempo_bpm : Int := 120
  channel_track_name : List (Int × String)
  muted_channels : List Int := []
deriving DecidableEq, Repr

/-- `MidiProject.used_channels` from `models.py` (`sorted` of the set of
channels: ascending distinct channel values). -/
def MidiProject.used_channels (p : MidiProject) : List Int :=
  ((p.notes.map (·.channel)).dedup).mergeSort fun a b => decide (a ≤ b)

/-- `MidiProject.notes_for_channel` from `models.py`. -/
def MidiProject.notes_for_channel (p : MidiProject) (ch : Int) : List NoteEvent :=
  p.notes.filter fun n => decide (n.channel = ch)

/-- `MidiProject.delete_channel` from `models.py`. -/
def MidiProject.delete_channel (p : MidiProject) (ch : Int) : MidiProject :=
  { p with
    notes := p.notes.filter fun n => decide (n.channel ≠ ch),
    channel_instrument_id := dictPop p.channel_instrument_id ch,
    channel_track_name := dictPop p.channel_track_name ch }

/-- `MidiProject.merge_channel_into` from `models.py`. -/
def MidiProject.merge_channel_into (p : MidiProject) (src dst : Int) : MidiProject :=
  if src = dst then p
  else
    let notes := p.notes.map fun n =>
      if n.channel = src then { n with channel := dst } else n
    let ci := dictPop p.channel_instrument_id src
    let tn1 :=
      match dictGet p.channel_track_name src, dictGet p.channel_track_name dst with
      | some lsrc, none => dictSet p.channel_track_name dst lsrc
      | _, _ => p.channel_track_name
    { p with
      notes := notes,
      channel_instrument_id := ci,
      channel_track_name := dictPop tn1 src }

/-- The dict transform performed by `swap_channels` on each of its two
mappings (`models.py` lines 69-90, the `ida`/`idb` and `la`/`lb` blocks,
which repeat the same code for the instrument-id and label dicts):
read both sides, then write-or-pop each side with the other's value. -/
def dictSwap {α : Type} (m : List (Int × α)) (a b : Int) : List (Int × α) :=
  let va := dictGet m a
  let vb := dictGet m b
  let m1 :=
    match va with
    | none => dictPop m b
    | some v => dictSet m b v
  match vb with
  | none => dictPop m1 a
  | some v => dictSet m1 a v

/-- `MidiProject.swap_channels` from `models.py`. -/
def MidiProject.swap_channels (p : MidiProject) (a b : Int) : MidiProject :=
  if a = b then p
  else
    { p with
      notes := p.notes.map fun n =>
        if n.channel = a then { n with channel := b }
        else if n.channel = b then { n with channel := a }
        else n,
      channel_instrument_id := dictSwap p.channel_instrument_id a b,
      channel_track_name := dictSwap p.channel_track_name a b }

theorem dictGet_dictSet {κ α : Type} [DecidableEq κ] (m : List (κ × α)) (k k' : κ) (v : α) :
    dictGet (dictSet m k v) k' = if k' = k then some v else dictGet m k' := by
  induction m with
  | nil => simp [dictSet, dictGet]
  | cons hd tl ih =>
    obtain ⟨k₁, v₁⟩ := hd
    by_cases h1 : k₁ = k
    · subst h1
      by_cases h2 : k' = k₁ <;> simp [dictSet, dictGet, h2]
    · by_cases h2 : k' = k₁
      · subst h2
        simp [dictSet, dictGet, h1]
      · simp [dictSet, dictGet, h1, h2, ih]

theorem dictGet_dictPop {κ α : Type} [DecidableEq κ] (m : List (κ × α)) (k k' : κ) :
    dictGet (dictPop m k) k' = if k' = k then none else dictGet m k' := by
  induction m with
  | nil => simp [dictPop, dictGet]
  | cons hd tl ih =>
    obtain ⟨k₁, v₁⟩ := hd
    by_cases h1 : k₁ = k
    · subst h1
      by_cases h2 : k' = k₁ <;>
        simp [dictPop, dictGet, h2, dictPop] at ih ⊢ <;> simp [ih, h2]
    · by_cases h2 : k' = k₁
      · subst h2
        simp [dictPop, dictGet, h1, ih]
      · simp [dictPop, dictGet, h1, h2, ih] at ih ⊢
        simp [ih]

theorem dictGet_dictSwap {α : Type} (m : List (Int × α)) (a b k : Int) (hab : a ≠ b) :
    dictGet (dictSwap m a b) k =
      dictGet m (if k = a then b else if k = b then a else k) := by
  unfold dictSwap
  rcases hva : dictGet m a with _ | va <;> rcases hvb : dictGet m b with _ | vb <;>
    by_cases hka : k = a <;> by_cases hkb : k = b <;>
      simp_all [dictGet_dictSet, dictGet_dictPop, hab, Ne.symm hab]

theorem swapNote_swapNote (a b : Int) (hab : a ≠ b) (n : NoteEvent) :
    (fun n : NoteEvent =>
        if n.channel = a then { n with channel := b }
        else if n.channel = b then { n with channel := a }
        else n)
      ((fun n : NoteEvent =>
        if n.channel = a then { n with channel := b }
        else if n.channel = b then { n with channel := a }
        else n) n) = n := by
  obtain ⟨s, e, pi, v, c, t⟩ := n
  by_cases hca : c = a <;> by_cases hcb : c = b <;> simp_all [Ne.symm hab]

/-- Claim C6: `swap_channels(a, b)` applied twice restores the project exactly:
every note's channel assignment, the instrument-id mapping and the
track-name mapping are identical to their original values, including
absence of entries (stated as pointwise equality of dict lookups). -/
theorem swap_channels_twice_restores (p : MidiProject) (a b : Int) :
    ((p.swap_channels a b).swap_channels a b).notes = p.notes ∧
    (∀ k, dictGet ((p.swap_channels a b).swap_channels a b).channel_instrument_id k
        = dictGet p.channel_instrument_id k) ∧
    (∀ k, dictGet ((p.swap_channels a b).swap_channels a b).channel_track_name k
        = dictGet p.channel_track_name k) := by
  by_cases hab : a = b
  · simp [MidiProject.swap_channels, hab]
  · refine ⟨?_, ?_, ?_⟩
    · simp only [MidiProject.swap_channels, if_neg hab, List.map_map]
      exact List.map_id'' (fun n => swapNote_swapNote a b hab n) p.notes
    · intro k
      simp only [MidiProject.swap_channels, if_neg hab]
      rw [dictGet_dictSwap _ _ _ _ hab, dictGet_dictSwap _ _ _ _ hab]
      congr 1
      by_cases hka : k = a <;> by_cases hkb : k = b <;> simp_all [Ne.symm hab]
    · intro k
      simp only [MidiProject.swap_channels, if_neg hab]
      rw [dictGet_dictSwap _ _ _ _ hab, dictGet_dictSwap _ _ _ _ hab]
      congr 1
      by_cases hka : k = a <;> by_cases hkb : k = b <;> simp_all [Ne.symm hab]

/-- Claim C10: `delete_channel`, `merge_channel_into` and `swap_channels`
leave `ticks_per_beat`, `tempo_bpm` and `muted_channels` unchanged; in
particular deleting a channel does not remove it from `muted_channels`. -/
theorem mutations_preserve_globals (p : MidiProject) (ch src dst a b : Int) :
    ((p.delete_channel ch).ticks_per_beat = p.ticks_per_beat ∧
     (p.delete_channel ch).tempo_bpm = p.tempo_bpm ∧
     (p.delete_channel ch).muted_channels = p.muted_channels) ∧
    ((p.merge_channel_into src dst).ticks_per_beat = p.ticks_per_beat ∧
     (p.merge_channel_into src dst).tempo_bpm = p.tempo_bpm ∧
     (p.merge_channel_into src dst).muted_channels = p.muted_channels) ∧
    ((p.swap_channels a b).ticks_per_beat = p.ticks_per_beat ∧
     (p.swap_channels a b).tempo_bpm = p.tempo_bpm ∧
     (p.swap_channels a b).muted_channels = p.muted_channels) ∧
    (ch ∈ (p.delete_channel ch).muted_channels ↔ ch ∈ p.muted_channels) := by
  refine ⟨⟨rfl, rfl, rfl⟩, ?_, ?_, Iff.rfl⟩
  · unfold MidiProject.merge_channel_into
    split <;> exact ⟨rfl, rfl, rfl⟩
  · unfold MidiProject.swap_channels
    split <;> exact ⟨rfl, rfl, rfl⟩

/-- A MIDI track message as consumed by `load_midi_as_notes` (`midi_io.py`):
`note_on` / `note_off` channel-voice messages and all other message kinds
collapsed to `other`, each carrying its delta `time`. -/
inductive MidiMsg where
  | note_on (channel pitch velocity : Int) (time : Int)
  | note_off (channel pitch velocity : Int) (time : Int)
  | other (time : Int)
deriving DecidableEq, Repr

/-- Delta time of a message (`msg.time`). -/
def MidiMsg.time : MidiMsg → Int
  | .note_on _ _ _ t => t
  | .note_off _ _ _ t => t
  | .other t => t

/-- `active.setdefault(key, []).append(v)`: append `v` to the pending list of
`key`, creating the entry (at the end, Python dict insertion order) if absent. -/
def activeAppend (m : List ((Int × Int) × List (Int × Int))) (k : Int × Int)
    (v : Int × Int) : List ((Int × Int) × List (Int × Int)) :=
  match m with
  | [] => [(k, [v])]
  | (k', vs) :: rest =>
    if k' = k then (k', vs ++ [v]) :: rest else (k', vs) :: activeAppend rest k v

/-- `active[key].pop(0)`: drop the front (oldest) pending entry of `key`,
leaving the key in place (possibly with an empty list), as Python does. -/
def activePopFront (m : List ((Int × Int) × List (Int × Int))) (k : Int × Int) :
    List ((Int × Int) × List (Int × Int)) :=
  match m with
  | [] => []
  | (k', vs) :: rest =>
    if k' = k then (k', vs.tail) :: rest else (k', vs) :: activePopFront rest k

/-- The decoder's per-track loop state: running absolute tick, the
`active` pending-note dict, and the notes emitted so far. -/
structure DecodeState where
  abs_tick : Int
  active : List ((Int × Int) × List (Int × Int))
  notes : List NoteEvent
deriving DecidableEq, Repr

/-- The shared note-off branch of the decoder loop (`midi_io.py` lines 74-90):
if the `(channel, pitch)` key has pending entries, pop the oldest and emit a
note only when the current tick is strictly past its start tick. -/
def noteOffAction (t_idx : Int) (st : DecodeState) (ch pitch : Int) : DecodeState :=
  match dictGet st.active (ch, pitch) with
  | some ((s, vel) :: _) =>
    { st with
      active := activePopFront st.active (ch, pitch),
      notes :=
        if s < st.abs_tick then
          st.notes ++ [⟨s, st.abs_tick, pitch, vel, ch, t_idx⟩]
        else st.notes }
  | _ => st

/-- One iteration of the decoder's message loop (`midi_io.py` lines 67-90).
A `note_on` with velocity > 0 opens a pending entry; a `note_off`, or a
`note_on` with velocity == 0, takes the note-off branch. -/
def decodeStep (t_idx : Int) (st : DecodeState) (msg : MidiMsg) : DecodeState :=
  let st := { st with abs_tick := st.abs_tick + msg.time }
  match msg with
  | .note_on ch pitch vel _ =>
    if 0 < vel then
      { st with active := activeAppend st.active (ch, pitch) (st.abs_tick, vel) }
    else if vel = 0 then noteOffAction t_idx st ch pitch
    else st
  | .note_off ch pitch _ _ => noteOffAction t_idx st ch pitch
  | .other _ => st

/-- End-of-track closure (`midi_io.py` lines 92-105): every still-pending
entry is closed at `max (start_tick + 1) final_tick`. -/
def closeStuckNotes (t_idx : Int) (st : DecodeState) : List NoteEvent :=
  st.active.flatMap fun kv =>
    kv.2.map fun sv =>
      ⟨sv.1, max (sv.1 + 1) st.abs_tick, kv.1.2, sv.2, kv.1.1, t_idx⟩

/-- Decode one track (`midi_io.py` lines 61-105). -/
def decodeTrack (t_idx : Int) (msgs : List MidiMsg) : List NoteEvent :=
  let st := msgs.foldl (decodeStep t_idx) ⟨0, [], []⟩
  st.notes ++ closeStuckNotes t_idx st

/-- `load_midi_as_notes` restricted to its note-reconstruction output
(`midi_io.py` lines 59-106): concatenation of the per-track decodes in
track order. -/
def load_midi_as_notes (tracks : List (List MidiMsg)) : List NoteEvent :=
  (tracks.enum.map fun p => decodeTrack (p.1 : Int) p.2).flatten

theorem noteOffAction_duration (t_idx : Int) (st : DecodeState) (ch pitch : Int)
    (h : ∀ n ∈ st.notes, n.start_tick < n.end_tick) :
    ∀ n ∈ (noteOffAction t_idx st ch pitch).notes, n.start_tick < n.end_tick := by
  unfold noteOffAction
  rcases hget : dictGet st.active (ch, pitch) with _ | ⟨_ | ⟨⟨s, vel⟩, rest⟩⟩
  · simpa using h
  · simpa using h
  · by_cases hlt : s < st.abs_tick
    · simp only [if_pos hlt]
      intro n hn
      rcases List.mem_append.1 hn with h1 | h1
      · exact h n h1
      · rw [List.mem_singleton] at h1
        subst h1
        exact hlt
    · simpa [if_neg hlt] using h

theorem decodeStep_duration (t_idx : Int) (st : DecodeState) (msg : MidiMsg)
    (h : ∀ n ∈ st.notes, n.start_tick < n.end_tick) :
    ∀ n ∈ (decodeStep t_idx st msg).notes, n.start_tick < n.end_tick := by
  cases msg with
  | note_on ch pitch vel t =>
    by_cases h1 : 0 < vel
    · simpa [decodeStep, if_pos h1] using h
    · by_cases h2 : vel = 0
      · simp only [decodeStep, if_neg h1, if_pos h2]
        exact noteOffAction_duration t_idx _ ch pitch h
      · simpa [decodeStep, if_neg h1, if_neg h2] using h
  | note_off ch pitch vel t =>
    exact noteOffAction_duration t_idx _ ch pitch h
  | other t => simpa [decodeStep] using h

theorem decodeFold_duration (t_idx : Int) :
    ∀ (msgs : List MidiMsg) (st : DecodeState),
      (∀ n ∈ st.notes, n.start_tick < n.end_tick) →
      ∀ n ∈ (msgs.foldl (decodeStep t_idx) st).notes, n.start_tick < n.end_tick := by
  intro msgs
  induction msgs with
  | nil => intro st h; simpa using h
  | cons m ms ih => intro st h; exact ih _ (decodeStep_duration t_idx st m h)

theorem closeStuckNotes_duration (t_idx : Int) (st : DecodeState) :
    ∀ n ∈ closeStuckNotes t_idx st, n.start_tick < n.end_tick := by
  intro n hn
  unfold closeStuckNotes at hn
  rw [List.mem_flatMap] at hn
  obtain ⟨kv, _, h2⟩ := hn
  rw [List.mem_map] at h2
  obtain ⟨sv, _, rfl⟩ := h2
  show sv.1 < max (sv.1 + 1) st.abs_tick
  exact lt_of_lt_of_le (by omega) (le_max_left _ _)

/-- Claim C2: every `NoteEvent` produced by decode satisfies
`end_tick > start_tick` strictly: zero/negative-duration pairings are
dropped, and end-of-track closure uses `max (start_tick + 1) final_tick`,
so a minimum 1-tick duration is guaranteed. -/
theorem decode_duration_positive (tracks : List (List MidiMsg)) :
    ∀ n ∈ load_midi_as_notes tracks, n.start_tick < n.end_tick := by
  intro n hn
  unfold load_midi_as_notes at hn
  rw [List.mem_flatten] at hn
  obtain ⟨l, hl, hnl⟩ := hn
  rw [List.mem_map] at hl
  obtain ⟨⟨i, msgs⟩, _, rfl⟩ := hl
  unfold decodeTrack at hnl
  rcases List.mem_append.1 hnl with h1 | h1
  · exact decodeFold_duration _ msgs _ (by simp) n h1
  · exact closeStuckNotes_duration _ _ n h1

/-- Witness for C2 at a concrete input. -/
theorem decode_duration_positive_witness :
    (⟨0, 5, 60, 64, 0, 0⟩ : NoteEvent).start_tick < (⟨0, 5, 60, 64, 0, 0⟩ : NoteEvent).end_tick :=
  decode_duration_positive [[.note_on 0 60 64 0, .note_off 0 60 0 5]]
    ⟨0, 5, 60, 64, 0, 0⟩ (by decide)

theorem dictGet_activePopFront (m : List ((Int × Int) × List (Int × Int)))
    (k : Int × Int) (vs : List (Int × Int)) (h : dictGet m k = some vs) :
    dictGet (activePopFront m k) k = some vs.tail := by
  induction m with
  | nil => simp [dictGet] at h
  | cons hd tl ih =>
    obtain ⟨k₁, vs₁⟩ := hd
    by_cases h1 : k = k₁
    · subst h1
      rw [dictGet, if_pos rfl] at h
      injection h with h
      subst h
      simp [activePopFront, dictGet]
    · rw [dictGet, if_neg h1] at h
      rw [activePopFront, if_neg (fun hh => h1 hh.symm), dictGet, if_neg h1]
      exact ih h

/-- The concrete overlap-stacking input of claim C1: three note-ons for
`(channel 0, pitch 60)` at absolute ticks 0, 10, 20, followed by three
note-offs at absolute ticks 5, 15, 25 (delta times 0, 10, 10, -15, 10, 10). -/
def overlapStackMsgs : List MidiMsg :=
  [.note_on 0 60 64 0, .note_on 0 60 64 10, .note_on 0 60 64 10,
   .note_off 0 60 0 (-15), .note_off 0 60 0 10, .note_off 0 60 0 10]

/-- Claim C1: a `note_off` (and equally a `note_on` with velocity 0) pops the
oldest pending entry (front of the list, FIFO) for its `(channel, pitch)`
key and emits a note exactly when the popped start tick is strictly below
the current tick; on the three-stacked-notes example the decode pairs FIFO,
producing exactly the notes (0,5), (10,15), (20,25). -/
theorem decode_noteoff_fifo (t_idx : Int) (st : DecodeState)
    (ch pitch vel time s v : Int) (rest : List (Int × Int))
    (hpend : dictGet st.active (ch, pitch) = some ((s, v) :: rest)) :
    (dictGet (decodeStep t_idx st (.note_off ch pitch vel time)).active (ch, pitch)
        = some rest ∧
     (decodeStep t_idx st (.note_off ch pitch vel time)).notes =
       (if s < st.abs_tick + time then
          st.notes ++ [⟨s, st.abs_tick + time, pitch, v, ch, t_idx⟩]
        else st.notes) ∧
     decodeStep t_idx st (.note_on ch pitch 0 time)
        = decodeStep t_idx st (.note_off ch pitch vel time)) ∧
    decodeTrack 0 overlapStackMsgs =
      [⟨0, 5, 60, 64, 0, 0⟩, ⟨10, 15, 60, 64, 0, 0⟩, ⟨20, 25, 60, 64, 0, 0⟩] := by
  refine ⟨⟨?_, ?_, ?_⟩, by decide⟩
  · simp only [decodeStep, noteOffAction, hpend]
    exact dictGet_activePopFront _ _ _ hpend
  · simp only [decodeStep, noteOffAction, hpend, MidiMsg.time]
  · simp [decodeStep, MidiMsg.time]

/-- Witness for C1 at a concrete decoder state. -/
theorem decode_noteoff_fifo_witness :
    (dictGet (decodeStep 0 ⟨5, [((0, 60), [(2, 64)])], []⟩
          (.note_off 0 60 0 3)).active (0, 60) = some [] ∧
     (decodeStep 0 ⟨5, [((0, 60), [(2, 64)])], []⟩ (.note_off 0 60 0 3)).notes =
       (if (2 : Int) < 5 + 3 then
          ([] : List NoteEvent) ++ [⟨2, 5 + 3, 60, 64, 0, 0⟩]
        else []) ∧
     decodeStep 0 ⟨5, [((0, 60), [(2, 64)])], []⟩ (.note_on 0 60 0 3)
        = decodeStep 0 ⟨5, [((0, 60), [(2, 64)])], []⟩ (.note_off 0 60 0 3)) ∧
    decodeTrack 0 overlapStackMsgs =
      [⟨0, 5, 60, 64, 0, 0⟩, ⟨10, 15, 60, 64, 0, 0⟩, ⟨20, 25, 60, 64, 0, 0⟩] :=
  decode_noteoff_fifo 0 ⟨5, [((0, 60), [(2, 64)])], []⟩ 0 60 0 3 2 64 [] (by decide)

/-- A message of the encoder's output event list (`midi_io.py`,
`save_project_to_midi`): note on/off and program-change channel messages. -/
inductive OutMsg where
  | note_on (channel pitch velocity : Int)
  | note_off (channel pitch velocity : Int)
  | program_change (channel program : Int)
deriving DecidableEq, Repr

/-- The secondary sort priority of `sort_key` (`midi_io.py` lines 176-181):
`-1` for `note_off`, `0` for everything else. -/
def outPri : OutMsg → Int
  | .note_off _ _ _ => -1
  | _ => 0

/-- The encoder's comparison: Python's stable sort by key
`(tick, pri)` in ascending lexicographic order. -/
def eventLE (a b : Int × OutMsg) : Bool :=
  decide (a.1 < b.1 ∨ (a.1 = b.1 ∧ outPri a.2 ≤ outPri b.2))

/-- `sorted({n.channel for n in notes if n.channel > 9})`
(`midi_io.py` line 138): ascending distinct offending channels. -/
def overChannels (notes : List NoteEvent) : List Int :=
  (((notes.filter fun n => decide (9 < n.channel)).map (·.channel)).dedup).mergeSort
    fun a b => decide (a ≤ b)

/-- The channel-range warning string (`midi_io.py` line 140). -/
def channelsOverWarning (over : List Int) : String :=
  "Channels over 9 present: " ++ toString over ++ ". Exportable channels are 0–9."

/-- The drop warning string (`midi_io.py` line 143). -/
def droppedNotesWarning : String := "Dropped notes on channels > 9 during export."

/-- The channel-filtering stage of `save_project_to_midi`
(`midi_io.py` lines 133-143): returns the accumulated warnings and the
retained note list. -/
def save_filtered (p : MidiProject) (normalize_to_channels_0_9 drop_channels_over_9 : Bool) :
    List String × List NoteEvent :=
  let notes := p.notes
  if normalize_to_channels_0_9 then
    let over := overChannels notes
    if over = [] then ([], notes)
    else if drop_channels_over_9 then
      ([channelsOverWarning over, droppedNotesWarning],
       notes.filter fun n => decide (n.channel ≤ 9))
    else ([channelsOverWarning over], notes)
  else ([], notes)

/-- The optional tick-0 program-change events (`midi_io.py` lines 159-164),
iterating `sorted(project.channel_instrument_id.items())`. -/
def save_program_events (p : MidiProject)
    (normalize_to_channels_0_9 force_programs_at_start : Bool) : List (Int × OutMsg) :=
  if force_programs_at_start then
    (p.channel_instrument_id.mergeSort fun a b =>
        decide (a.1 < b.1 ∨ (a.1 = b.1 ∧ a.2 ≤ b.2))).filterMap fun kv =>
      if normalize_to_channels_0_9 ∧ 9 < kv.1 then none
      else some ((0 : Int), OutMsg.program_change kv.1 kv.2)
  else []

/-- The per-note event pairs (`midi_io.py` lines 167-173). -/
def save_note_events (notes : List NoteEvent) : List (Int × OutMsg) :=
  notes.flatMap fun n =>
    [(n.start_tick, OutMsg.note_on n.channel n.pitch n.velocity),
     (n.end_tick, OutMsg.note_off n.channel n.pitch 0)]

/-- The sorted absolute-time event list the encoder serializes in order
(`midi_io.py` lines 156-183): programs-at-0 then note pairs, sorted by
`(tick, note_off before others at equal tick)` with a stable sort. -/
def save_events (p : MidiProject)
    (normalize_to_channels_0_9 drop_channels_over_9 force_programs_at_start : Bool) :
    List (Int × OutMsg) :=
  ((save_program_events p normalize_to_channels_0_9 force_programs_at_start) ++
    save_note_events (save_filtered p normalize_to_channels_0_9 drop_channels_over_9).2).mergeSort
    eventLE

theorem eventLE_trans (a b c : Int × OutMsg) (h1 : eventLE a b) (h2 : eventLE b c) :
    eventLE a c := by
  simp only [eventLE, decide_eq_true_eq] at h1 h2 ⊢
  omega

theorem eventLE_total (a b : Int × OutMsg) : eventLE a b || eventLE b a := by
  simp only [eventLE, Bool.or_eq_true, decide_eq_true_eq]
  omega

/-- Does this output message open a note? -/
def isNoteOn : OutMsg → Bool
  | .note_on _ _ _ => true
  | _ => false

/-- Does this output message close a note? -/
def isNoteOff : OutMsg → Bool
  | .note_off _ _ _ => true
  | _ => false

theorem save_events_sorted (p : MidiProject) (norm drop force : Bool) :
    (save_events p norm drop force).Pairwise fun a b => eventLE a b = true := by
  exact List.sorted_mergeSort eventLE_trans eventLE_total _

/-- Claim C3: in the encoder's sorted output event list, events are ordered
by absolute tick ascending, at any equal tick no `note_on` precedes a
`note_off` (so every note_off precedes every note_on at that tick), and
consequently for two retained notes A, B on the same channel and pitch with
`A.end_tick = B.start_tick`, A's note_off occurs at an earlier position
than B's note_on. -/
theorem save_events_ordering (p : MidiProject) (norm drop force : Bool) :
    (save_events p norm drop force).Pairwise (fun a b => a.1 ≤ b.1) ∧
    (save_events p norm drop force).Pairwise
      (fun a b => a.1 = b.1 → ¬(isNoteOn a.2 = true ∧ isNoteOff b.2 = true)) ∧
    (∀ A ∈ (save_filtered p norm drop).2, ∀ B ∈ (save_filtered p norm drop).2,
      A.channel = B.channel → A.pitch = B.pitch → A.end_tick = B.start_tick →
      ∃ i j : Fin (save_events p norm drop force).length, i.1 < j.1 ∧
        (save_events p norm drop force).get i
          = (A.end_tick, OutMsg.note_off A.channel A.pitch 0) ∧
        (save_events p norm drop force).get j
          = (B.start_tick, OutMsg.note_on B.channel B.pitch B.velocity)) := by
  have hs := save_events_sorted p norm drop force
  refine ⟨?_, ?_, ?_⟩
  · refine hs.imp fun h => ?_
    simp only [eventLE, decide_eq_true_eq] at h
    omega
  · refine hs.imp ?_
    rintro ⟨t1, m1⟩ ⟨t2, m2⟩ h heq ⟨hon, hoff⟩
    simp only [eventLE, decide_eq_true_eq] at h
    cases m1 <;> simp [isNoteOn] at hon
    cases m2 <;> simp [isNoteOff] at hoff
    simp [outPri] at h
    omega
  · intro A hA B hB hch hpitch hend
    have hoffmem : (A.end_tick, OutMsg.note_off A.channel A.pitch 0)
        ∈ save_events p norm drop force := by
      rw [save_events, List.mem_mergeSort, List.mem_append]
      right
      rw [save_note_events, List.mem_flatMap]
      exact ⟨A, hA, by simp⟩
    have honmem : (B.start_tick, OutMsg.note_on B.channel B.pitch B.velocity)
        ∈ save_events p norm drop force := by
      rw [save_events, List.mem_mergeSort, List.mem_append]
      right
      rw [save_note_events, List.mem_flatMap]
      exact ⟨B, hB, by simp⟩
    obtain ⟨i, hi⟩ := List.mem_iff_get.1 hoffmem
    obtain ⟨j, hj⟩ := List.mem_iff_get.1 honmem
    refine ⟨i, j, ?_, hi, hj⟩
    rcases lt_trichotomy j.1 i.1 with hji | hji | hji
    · exfalso
      have := List.pairwise_iff_get.1 hs j i hji
      rw [hi, hj] at this
      simp only [eventLE, decide_eq_true_eq, outPri] at this
      omega
    · exfalso
      have : i = j := Fin.ext hji.symm
      rw [this, hj] at hi
      simp at hi
    · exact hji

theorem chanWarn_data_head (over : List Int) :
    (channelsOverWarning over).data.head? = some 'C' := rfl

theorem dropWarn_ne_chanWarn (over : List Int) :
    droppedNotesWarning ≠ channelsOverWarning over := by
  intro h
  have h1 : droppedNotesWarning.data.head? = (channelsOverWarning over).data.head? := by
    rw [h]
  rw [chanWarn_data_head] at h1
  simp [droppedNotesWarning] at h1

theorem overChannels_ne_nil_iff (notes : List NoteEvent) :
    overChannels notes ≠ [] ↔ ∃ n ∈ notes, 9 < n.channel := by
  constructor
  · intro h
    rcases List.exists_mem_of_ne_nil _ h with ⟨c, hc⟩
    unfold overChannels at hc
    rw [List.mem_mergeSort, List.mem_dedup, List.mem_map] at hc
    obtain ⟨n, hn, rfl⟩ := hc
    rw [List.mem_filter] at hn
    exact ⟨n, hn.1, by simpa using hn.2⟩
  · rintro ⟨n, hn, hch⟩ h
    have hmem : n.channel ∈ overChannels notes := by
      unfold overChannels
      rw [List.mem_mergeSort, List.mem_dedup, List.mem_map]
      exact ⟨n, List.mem_filter.2 ⟨hn, by simpa using hch⟩, rfl⟩
    rw [h] at hmem
    simp at hmem

/-- Claim C8: the encoder is total on well-formed projects (this embedding of
its warning/filter stage is a function) and: the channel-range warning is
present iff normalization is on and some note sits on a channel above 9; the
drop warning is present iff dropping is also on; with both flags set every
retained note is on a channel at most 9; if neither flag forces anything the
note list passes through; and with no over-9 channel the warnings are empty. -/
theorem save_warnings_iff (p : MidiProject) (norm drop : Bool) :
    (channelsOverWarning (overChannels p.notes) ∈ (save_filtered p norm drop).1 ↔
      (norm = true ∧ ∃ n ∈ p.notes, 9 < n.channel)) ∧
    (droppedNotesWarning ∈ (save_filtered p norm drop).1 ↔
      (norm = true ∧ drop = true ∧ ∃ n ∈ p.notes, 9 < n.channel)) ∧
    ((norm = true ∧ drop = true) → ∀ n ∈ (save_filtered p norm drop).2, n.channel ≤ 9) ∧
    ((norm = false ∨ drop = false) → (save_filtered p norm drop).2 = p.notes) ∧
    ((∀ n ∈ p.notes, n.channel ≤ 9) → (save_filtered p norm drop).1 = []) := by
  have hiff := overChannels_ne_nil_iff p.notes
  cases norm with
  | false =>
    refine ⟨by simp [save_filtered], by simp [save_filtered], ?_, by simp [save_filtered],
      by simp [save_filtered]⟩
    rintro ⟨h, -⟩
    exact absurd h (by simp)
  | true =>
    by_cases hover : overChannels p.notes = []
    · have hnot : ¬ ∃ n ∈ p.notes, 9 < n.channel := fun he => (hiff.2 he) hover
      have hall : ∀ n ∈ p.notes, n.channel ≤ 9 := by
        intro n hn
        by_contra hc
        exact hnot ⟨n, hn, by omega⟩
      cases drop <;>
        refine ⟨by simp [save_filtered, hover, hnot], by simp [save_filtered, hover, hnot],
          ?_, by simp [save_filtered, hover], by simp [save_filtered, hover]⟩ <;>
        · intro _ n hn
          simp only [save_filtered, if_pos hover, if_pos rfl] at hn
          exact hall n hn
    · have hex : ∃ n ∈ p.notes, 9 < n.channel := hiff.1 hover
      cases drop with
      | false =>
        refine ⟨?_, ?_, ?_, ?_, ?_⟩
        · simp [save_filtered, hover, hex]
        · simp only [save_filtered, if_neg hover]
          constructor
          · intro hmem
            simp at hmem
            exact absurd hmem (dropWarn_ne_chanWarn _)
          · rintro ⟨-, h, -⟩
            exact absurd h (by simp)
        · rintro ⟨-, h⟩
          exact absurd h (by simp)
        · intro _
          simp [save_filtered, hover]
        · intro hall
          obtain ⟨n, hn, hch⟩ := hex
          have := hall n hn
          omega
      | true =>
        refine ⟨?_, ?_, ?_, ?_, ?_⟩
        · simp [save_filtered, hover, hex]
        · simp [save_filtered, hover, hex]
        · intro _ n hn
          simp only [save_filtered, if_neg hover, if_pos rfl] at hn
          rcases List.mem_filter.1 hn with ⟨-, h2⟩
          simpa using h2
        · rintro (h | h) <;> exact absurd h (by simp)
        · intro hall
          obtain ⟨n, hn, hch⟩ := hex
          have := hall n hn
          omega

/-- Witness for C8: a project with one note on channel 10 exported with both
flags produces the channel-range warning. -/
theorem save_warnings_iff_witness :
    channelsOverWarning
        (overChannels (⟨480, [⟨0, 1, 60, 64, 10, 0⟩], [], 120, [], []⟩ : MidiProject).notes)
      ∈ (save_filtered ⟨480, [⟨0, 1, 60, 64, 10, 0⟩], [], 120, [], []⟩ true true).1 :=
  (save_warnings_iff ⟨480, [⟨0, 1, 60, 64, 10, 0⟩], [], 120, [], []⟩ true true).1.mpr
    ⟨rfl, ⟨0, 1, 60, 64, 10, 0⟩, by decide, by decide⟩

/-- Witness for C3: two back-to-back notes on channel 0, pitch 60; the
note_off at tick 10 is serialized before the note_on at tick 10. -/
theorem save_events_ordering_witness :
    ∃ i j : Fin (save_events ⟨480, [⟨0, 10, 60, 64, 0, 0⟩, ⟨10, 20, 60, 64, 0, 0⟩],
        [], 120, [], []⟩ true true false).length, i.1 < j.1 ∧
      (save_events ⟨480, [⟨0, 10, 60, 64, 0, 0⟩, ⟨10, 20, 60, 64, 0, 0⟩],
        [], 120, [], []⟩ true true false).get i = (10, OutMsg.note_off 0 60 0) ∧
      (save_events ⟨480, [⟨0, 10, 60, 64, 0, 0⟩, ⟨10, 20, 60, 64, 0, 0⟩],
        [], 120, [], []⟩ true true false).get j = (10, OutMsg.note_on 0 60 64) :=
  (save_events_ordering ⟨480, [⟨0, 10, 60, 64, 0, 0⟩, ⟨10, 20, 60, 64, 0, 0⟩],
      [], 120, [], []⟩ true true false).2.2
    ⟨0, 10, 60, 64, 0, 0⟩ (by simp [save_filtered, overChannels])
    ⟨10, 20, 60, 64, 0, 0⟩ (by simp [save_filtered, overChannels]) rfl rfl rfl

/-- A message of an encoded MIDI file as consumed by `inject_init_events`
(`midi_init_injector.py`): `set_tempo` meta messages, `program_change`
channel messages, and everything else as `other`, with delta `time`. -/
inductive TrackMsg where
  | set_tempo (tempo : Int) (time : Int)
  | program_change (channel program : Int) (time : Int)
  | other (time : Int)
deriving DecidableEq, Repr

/-- `has_meta_set_tempo_at_0` (`midi_init_injector.py` lines 38-39). -/
def hasTempoAt0 (tr : List TrackMsg) : Bool :=
  tr.any fun m =>
    match m with
    | .set_tempo _ t => decide (t = 0)
    | _ => false

/-- `has_program_change_at_0` (`midi_init_injector.py` lines 41-48). -/
def hasPCAt0 (tr : List TrackMsg) (ch : Int) : Bool :=
  tr.any fun m =>
    match m with
    | .program_change c _ t => decide (t = 0) && decide (c = ch)
    | _ => false

/-- Models `mido.bpm2tempo`: microseconds per beat, `round(60e6 / bpm)`
(here rounded half-up over the integers; exact at every input whose
quotient is not a half, in particular at all inputs used below). -/
def bpm2tempo (bpm : Int) : Int := (120000000 + bpm).fdiv (2 * bpm)

/-- The `inserts` list built by `inject_init_events`
(`midi_init_injector.py` lines 50-69): a tick-0 tempo if none exists, then
a tick-0 program change for each melodic channel lacking one, then the
drum-channel program change (program 0) if in range and absent. -/
def injectInserts (t0 : List TrackMsg) (tempo_bpm program_base max_melodic : Int)
    (drum : Option Int) : List TrackMsg :=
  (if hasTempoAt0 t0 then [] else [.set_tempo (bpm2tempo tempo_bpm) 0]) ++
  ((List.range max_melodic.toNat).filterMap fun (ch : Nat) =>
    if hasPCAt0 t0 (ch : Int) then none
    else some (.program_change (ch : Int) (program_base + (ch : Int)) 0)) ++
  (match drum with
   | none => []
   | some d =>
     if 0 ≤ d ∧ d ≤ 15 ∧ hasPCAt0 t0 d = false then [.program_change d 0 0] else [])

/-- `inject_init_events` (`midi_init_injector.py`): ensure at least one
track, then insert the block at the very start of track 0, preserving its
relative order. -/
def inject_init_events (tracks : List (List TrackMsg))
    (tempo_bpm program_base max_melodic : Int) (drum : Option Int) :
    List (List TrackMsg) :=
  let tracks := if tracks.isEmpty then [[]] else tracks
  let t0 := tracks.headD []
  (injectInserts t0 tempo_bpm program_base max_melodic drum ++ t0) :: tracks.tail

theorem inject_init_events_eq (tracks : List (List TrackMsg)) (b pb mm : Int)
    (dr : Option Int) :
    inject_init_events tracks b pb mm dr
      = (injectInserts ((if tracks.isEmpty then [[]] else tracks).headD []) b pb mm dr
          ++ (if tracks.isEmpty then [[]] else tracks).headD [])
        :: (if tracks.isEmpty then [[]] else tracks).tail := rfl

theorem hasTempoAt0_inject (t0 : List TrackMsg) (b pb mm : Int) (dr : Option Int) :
    hasTempoAt0 (injectInserts t0 b pb mm dr ++ t0) = true := by
  by_cases h : hasTempoAt0 t0 = true
  · unfold hasTempoAt0 at h ⊢
    rw [List.any_append, h, Bool.or_true]
  · unfold injectInserts
    rw [if_neg h]
    unfold hasTempoAt0
    simp

theorem hasPCAt0_inject_melodic (t0 : List TrackMsg) (b pb mm : Int) (dr : Option Int)
    (ch : Int) (h0 : 0 ≤ ch) (hlt : ch < mm) :
    hasPCAt0 (injectInserts t0 b pb mm dr ++ t0) ch = true := by
  by_cases h : hasPCAt0 t0 ch = true
  · unfold hasPCAt0 at h ⊢
    rw [List.any_append, h, Bool.or_true]
  · have hmem : TrackMsg.program_change ch (pb + ch) 0 ∈ injectInserts t0 b pb mm dr := by
      unfold injectInserts
      refine List.mem_append_left _ (List.mem_append_right _ ?_)
      rw [List.mem_filterMap]
      have hrange : ch.toNat ∈ List.range mm.toNat := List.mem_range.2 (by omega)
      refine ⟨ch.toNat, hrange, ?_⟩
      rw [Int.toNat_of_nonneg h0]
      rw [if_neg (by simp [h])]
    unfold hasPCAt0
    rw [List.any_eq_true]
    exact ⟨_, List.mem_append_left _ hmem, by simp⟩

theorem hasPCAt0_inject_drum (t0 : List TrackMsg) (b pb mm d : Int)
    (h0 : 0 ≤ d) (h15 : d ≤ 15) :
    hasPCAt0 (injectInserts t0 b pb mm (some d) ++ t0) d = true := by
  by_cases h : hasPCAt0 t0 d = true
  · unfold hasPCAt0 at h ⊢
    rw [List.any_append, h, Bool.or_true]
  · have hmem : TrackMsg.program_change d 0 0 ∈ injectInserts t0 b pb mm (some d) := by
      unfold injectInserts
      refine List.mem_append_right _ ?_
      show TrackMsg.program_change d 0 0 ∈
        (if 0 ≤ d ∧ d ≤ 15 ∧ hasPCAt0 t0 d = false then [TrackMsg.program_change d 0 0]
         else [])
      rw [if_pos ⟨h0, h15, by simpa using h⟩]
      exact List.mem_singleton.2 rfl
    unfold hasPCAt0
    rw [List.any_eq_true]
    exact ⟨_, List.mem_append_left _ hmem, by simp⟩

theorem injectInserts_after_inject (t0 : List TrackMsg) (b pb mm : Int)
    (dr : Option Int) :
    injectInserts (injectInserts t0 b pb mm dr ++ t0) b pb mm dr = [] := by
  conv_lhs => rw [injectInserts.eq_def]
  rw [if_pos (hasTempoAt0_inject t0 b pb mm dr)]
  have hmel : ((List.range mm.toNat).filterMap fun (ch : Nat) =>
      if hasPCAt0 (injectInserts t0 b pb mm dr ++ t0) (ch : Int) then none
      else some (TrackMsg.program_change (ch : Int) (pb + (ch : Int)) 0)) = [] := by
    rw [List.filterMap_eq_nil_iff]
    intro ch hch
    rw [List.mem_range] at hch
    rw [if_pos (hasPCAt0_inject_melodic t0 b pb mm dr (ch : Int) (by omega) (by omega))]
  rw [hmel]
  cases dr with
  | none => rfl
  | some d =>
    simp only [List.nil_append, List.append_nil]
    show (if 0 ≤ d ∧ d ≤ 15 ∧ hasPCAt0 (injectInserts t0 b pb mm (some d) ++ t0) d = false
        then [TrackMsg.program_change d 0 0] else []) = []
    rw [if_neg]
    rintro ⟨h0, h15, hfalse⟩
    rw [hasPCAt0_inject_drum t0 b pb mm d h0 h15] at hfalse
    cases hfalse

/-- Claim C4: the initialization-event injector is idempotent: running it on
its own output with the same parameters computes an empty insert block, so
the file is returned unchanged and no duplicate tick-0 `set_tempo` or
per-channel tick-0 `program_change` events are ever produced. -/
theorem inject_init_events_idempotent (tracks : List (List TrackMsg))
    (tempo_bpm program_base max_melodic : Int) (drum : Option Int) :
    injectInserts ((inject_init_events tracks tempo_bpm program_base max_melodic drum).headD [])
        tempo_bpm program_base max_melodic drum = [] ∧
    inject_init_events (inject_init_events tracks tempo_bpm program_base max_melodic drum)
        tempo_bpm program_base max_melodic drum
      = inject_init_events tracks tempo_bpm program_base max_melodic drum := by
  have h1 := inject_init_events_eq tracks tempo_bpm program_base max_melodic drum
  have hkey := injectInserts_after_inject
    ((if tracks.isEmpty then [[]] else tracks).headD []) tempo_bpm program_base max_melodic drum
  constructor
  · rw [h1]
    exact hkey
  · rw [inject_init_events_eq (inject_init_events tracks tempo_bpm program_base max_melodic drum)]
    rw [h1]
    simp only [List.isEmpty_cons, List.headD_cons, List.tail_cons, if_neg Bool.false_ne_true]
    rw [hkey, List.nil_append]

/-- Counterexample to C5 as stated: injecting into a file with no tick-0
tempo at requested BPM 500 writes `set_tempo` for 500 BPM (120000 µs/beat),
not for the clamped 300 BPM (200000 µs/beat). -/
theorem inject_tempo_clamp_cex :
    ((inject_init_events [[]] 500 1 9 (some 9)).headD []).headD (.other 0)
        = TrackMsg.set_tempo 120000 0 ∧
    bpm2tempo 500 = 120000 ∧
    bpm2tempo (max 30 (min 300 500)) = 200000 ∧
    (120000 : Int) ≠ 200000 := by
  refine ⟨rfl, by decide, by decide, by decide⟩

/-- Claim C5 (amended): when the input's first track has no tick-0
`set_tempo`, `inject_init_events` prepends a `set_tempo` built from the
requested `tempo_bpm` as passed — unclamped; requested BPM outside
[30, 300] are written as requested, not at the clamped value. -/
theorem inject_tempo_unclamped (tracks : List (List TrackMsg))
    (b pb mm : Int) (dr : Option Int)
    (h : hasTempoAt0 ((if tracks.isEmpty then [[]] else tracks).headD []) = false) :
    ((inject_init_events tracks b pb mm dr).headD []).headD (.other 0)
      = TrackMsg.set_tempo (bpm2tempo b) 0 := by
  rw [inject_init_events_eq, List.headD_cons]
  unfold injectInserts
  rw [if_neg (by simp only [h]; decide)]
  rfl

/-- Witness for the amended C5 at a concrete input. -/
theorem inject_tempo_unclamped_witness :
    ((inject_init_events [[]] 500 1 9 (some 9)).headD []).headD (.other 0)
      = TrackMsg.set_tempo (bpm2tempo 500) 0 :=
  inject_tempo_unclamped [[]] 500 1 9 (some 9) (by decide)

/-- One entry of the caller-supplied target drumset (`drum_remap.py`,
`rs_drums_by_note` values): the fields `_build_rs_category_to_notes`
reads.  Keys are modelled as integers (the parsed form of the dict key). -/
structure DrumInfo where
  name : String
  category : String
deriving DecidableEq, Repr

/-- Drop the characters of a leftmost `re` match `\x28[^\x29]*\x29`: skip up
to and including the first close paren. -/
def dropThroughClose : List Char → List Char
  | [] => []
  | c :: rest => if c = ')' then rest else dropThroughClose rest

theorem dropThroughClose_length_le : ∀ l : List Char, (dropThroughClose l).length ≤ l.length := by
  intro l
  induction l with
  | nil => simp [dropThroughClose]
  | cons c rest ih =>
    rw [dropThroughClose]
    split
    · simp
    · exact Nat.le_succ_of_le ih

/-- Worker for `stripParens`, structurally recursive on a fuel bound that
dominates the list length (so it evaluates inside the kernel). -/
def stripParensFuel : Nat → List Char → List Char
  | 0, _ => []
  | _ + 1, [] => []
  | fuel + 1, c :: rest =>
    if c = '(' ∧ (')') ∈ rest then stripParensFuel fuel (dropThroughClose rest)
    else c :: stripParensFuel fuel rest

/-- `re.sub` of all parenthesised spans (`_norm` in `drum_remap.py`): an
open paren with a later close paren is removed together with everything up
to that first close paren; an unmatched open paren stays. -/
def stripParens (l : List Char) : List Char := stripParensFuel l.length l

/-- Is this character in `[a-z0-9]` (the character class kept by `_norm`
after lowercasing)? -/
def isLowerAlnum (c : Char) : Bool :=
  ('a' ≤ c && c ≤ 'z') || ('0' ≤ c && c ≤ '9')

/-- Python `str.strip`: drop whitespace on both ends. -/
def stripChars (l : List Char) : List Char :=
  ((l.dropWhile Char.isWhitespace).reverse.dropWhile Char.isWhitespace).reverse

/-- The maximal runs of kept `[a-z0-9]` characters, left to right
(`cur` holds the current run reversed).  Replacing every run of other
characters by one space and splitting/rejoining on whitespace — the last
two steps of `_norm` — keeps exactly these words. -/
def alnumWords : List Char → List Char → List (List Char)
  | [], cur => if cur = [] then [] else [cur.reverse]
  | c :: rest, cur =>
    if isLowerAlnum c then alnumWords rest (c :: cur)
    else if cur = [] then alnumWords rest []
    else cur.reverse :: alnumWords rest []

/-- `_norm` from `drum_remap.py`: lowercase and strip, remove parenthesised
spans, then join the runs of `[a-z0-9]` characters with single spaces. -/
def pyNorm (s : String) : String :=
  let s1 := stripChars (s.toList.map Char.toLower)
  let s2 := stripParens s1
  (List.intercalate [' '] (alnumWords s2 [])).asString

/-- `active`-style setdefault-append for the category map
(`cat_to_notes.setdefault(cat, []).append(midi_note)`). -/
def catAppend (m : List (String × List Int)) (k : String) (v : Int) :
    List (String × List Int) :=
  match m with
  | [] => [(k, [v])]
  | (k', vs) :: rest =>
    if k' = k then (k', vs ++ [v]) :: rest else (k', vs) :: catAppend rest k v

/-- `GM_NOTE_TO_CATEGORY` from `drum_remap.py`, in insertion order. -/
def GM_NOTE_TO_CATEGORY : List (Int × String) :=
  [(35, "kick"), (36, "kick"), (38, "snare"), (40, "snare"), (39, "clap"),
   (42, "hihat"), (46, "hihat"), (49, "crash"), (55, "crash"), (57, "crash")]

/-- `_build_rs_category_to_notes` from `drum_remap.py`: category → sorted
eligible note numbers, skipping entries with empty name/category, category
"empty", or normalised name "empty slot". -/
def buildRsCategoryToNotes (drums : List (Int × DrumInfo)) : List (String × List Int) :=
  let m := drums.foldl
    (fun acc kv =>
      if kv.2.name = "" ∨ kv.2.category = "" then acc
      else if kv.2.category = "empty" ∨ pyNorm kv.2.name = "empty slot" then acc
      else catAppend acc kv.2.category kv.1)
    []
  m.map fun p => (p.1, List.insertionSort (fun a b => a ≤ b) p.2)

/-- The fixed per-category preference table of `_preferred_rs_note`. -/
def preferredTable (cat : String) : Option Int :=
  if cat = "kick" then some 36
  else if cat = "snare" then some 38
  else if cat = "hihat" then some 42
  else if cat = "crash" then some 55
  else if cat = "clap" then some 39
  else if cat = "tom" then some 45
  else if cat = "bell" then some 53
  else if cat = "shaker" then some 54
  else none

/-- `_preferred_rs_note` from `drum_remap.py`: the preferred note when
eligible, else the lowest eligible note of the category. -/
def preferredRsNote (cat : String) (catToNotes : List (String × List Int)) : Option Int :=
  let notes := (dictGet catToNotes cat).getD []
  if notes = [] then none
  else
    match preferredTable cat with
    | some p => if p ∈ notes then some p else some (notes.headD 0)
    | none => some (notes.headD 0)

/-- `_build_gm_to_rs` from `drum_remap.py`: compose the category map with
per-category preferred targets over the fixed GM vocabulary. -/
def build_gm_to_rs (drums : List (Int × DrumInfo)) : List (Int × Int) :=
  let ctn := buildRsCategoryToNotes drums
  let catToPref : List (String × Int) :=
    ctn.filterMap fun p => (preferredRsNote p.1 ctn).map fun n => (p.1, n)
  GM_NOTE_TO_CATEGORY.filterMap fun gc =>
    (dictGet catToPref gc.2).map fun rs => (gc.1, rs)

/-- One note of the remap loop (`drum_remap.py` lines 130-148), threading
the `(changed, unmapped, processed notes)` accumulator.  `unmapped` is a
Python set, modelled as an insertion-ordered duplicate-free list. -/
def remapStep (gm_to_rs : List (Int × Int)) (rs_valid : List Int)
    (acc : Nat × List Int × List NoteEvent) (n : NoteEvent) :
    Nat × List Int × List NoteEvent :=
  if n.channel ≠ 9 then (acc.1, acc.2.1, acc.2.2 ++ [n])
  else
    match dictGet gm_to_rs n.pitch with
    | some new_pitch =>
      if new_pitch ≠ n.pitch then
        (acc.1 + 1, acc.2.1, acc.2.2 ++ [{ n with pitch := new_pitch }])
      else (acc.1, acc.2.1, acc.2.2 ++ [n])
    | none =>
      if n.pitch ∈ rs_valid then (acc.1, acc.2.1, acc.2.2 ++ [n])
      else (acc.1, if n.pitch ∈ acc.2.1 then acc.2.1 else acc.2.1 ++ [n.pitch],
            acc.2.2 ++ [n])

/-- `remap_channel_9_notes_in_place` from `drum_remap.py` (the in-place
pitch mutation is modelled by returning the processed note list along with
`(changed, unmapped)`; `keep_unmapped` has no effect in the source and is
omitted). -/
def remap_channel_9_notes_in_place (notes : List NoteEvent)
    (drums : List (Int × DrumInfo)) : Nat × List Int × List NoteEvent :=
  let gm_to_rs := build_gm_to_rs drums
  let rs_valid := drums.map Prod.fst
  notes.foldl (remapStep gm_to_rs rs_valid) (0, [], [])

/-- The pitch transform a single pass applies to one note: channel-9 notes
with a mapped pitch are rewritten, everything else is untouched. -/
def remapNote (gm_to_rs : List (Int × Int)) (n : NoteEvent) : NoteEvent :=
  if n.channel = 9 then
    match dictGet gm_to_rs n.pitch with
    | some q => { n with pitch := q }
    | none => n
  else n

/-- The contribution of one note to the `changed` counter. -/
def remapChangedInc (gm_to_rs : List (Int × Int)) (n : NoteEvent) : Nat :=
  if n.channel = 9 then
    match dictGet gm_to_rs n.pitch with
    | some q => if q ≠ n.pitch then 1 else 0
    | none => 0
  else 0

theorem remapStep_notes (gm : List (Int × Int)) (rs : List Int)
    (acc : Nat × List Int × List NoteEvent) (n : NoteEvent) :
    (remapStep gm rs acc n).2.2 = acc.2.2 ++ [remapNote gm n] := by
  obtain ⟨c, u, out⟩ := acc
  by_cases h9 : n.channel = 9
  · rcases hget : dictGet gm n.pitch with _ | q
    · by_cases hrs : n.pitch ∈ rs <;> simp [remapStep, remapNote, h9, hget, hrs]
    · by_cases hne : q = n.pitch
      · subst hne
        obtain ⟨s, e, pi, v, ch, t⟩ := n
        simp_all [remapStep, remapNote]
      · simp [remapStep, remapNote, h9, hget, hne]
  · simp [remapStep, remapNote, h9]

theorem remapStep_changed (gm : List (Int × Int)) (rs : List Int)
    (acc : Nat × List Int × List NoteEvent) (n : NoteEvent) :
    (remapStep gm rs acc n).1 = acc.1 + remapChangedInc gm n := by
  obtain ⟨c, u, out⟩ := acc
  by_cases h9 : n.channel = 9
  · rcases hget : dictGet gm n.pitch with _ | q
    · by_cases hrs : n.pitch ∈ rs <;> simp [remapStep, remapChangedInc, h9, hget, hrs]
    · by_cases hne : q = n.pitch <;> simp [remapStep, remapChangedInc, h9, hget, hne]
  · simp [remapStep, remapChangedInc, h9]

theorem remapFold_notes (gm : List (Int × Int)) (rs : List Int) :
    ∀ (l : List NoteEvent) (acc : Nat × List Int × List NoteEvent),
      (l.foldl (remapStep gm rs) acc).2.2 = acc.2.2 ++ l.map (remapNote gm) := by
  intro l
  induction l with
  | nil => intro acc; simp
  | cons n rest ih =>
    intro acc
    rw [List.foldl_cons, ih, remapStep_notes, List.map_cons, List.append_assoc,
      List.singleton_append]

theorem remapFold_changed (gm : List (Int × Int)) (rs : List Int) :
    ∀ (l : List NoteEvent) (acc : Nat × List Int × List NoteEvent),
      (l.foldl (remapStep gm rs) acc).1
        = acc.1 + (l.map (remapChangedInc gm)).sum := by
  intro l
  induction l with
  | nil => intro acc; simp
  | cons n rest ih =>
    intro acc
    rw [List.foldl_cons, ih, remapStep_changed, List.map_cons, List.sum_cons]
    omega

/-- Claim C9: the remapper touches only the pitch of channel-9 notes: the
output list pairs with the input list one-for-one (same length, no note
added or removed), all fields other than `pitch` are preserved, and notes
off channel 9 are returned fully unchanged. -/
theorem remap_frame (notes : List NoteEvent) (drums : List (Int × DrumInfo)) :
    (remap_channel_9_notes_in_place notes drums).2.2.length = notes.length ∧
    List.Forall₂
      (fun n' n => n'.start_tick = n.start_tick ∧ n'.end_tick = n.end_tick ∧
        n'.velocity = n.velocity ∧ n'.channel = n.channel ∧
        n'.track_index = n.track_index ∧ (n.channel ≠ 9 → n' = n))
      (remap_channel_9_notes_in_place notes drums).2.2 notes := by
  have hout : (remap_channel_9_notes_in_place notes drums).2.2
      = notes.map (remapNote (build_gm_to_rs drums)) := by
    unfold remap_channel_9_notes_in_place
    rw [remapFold_notes]
    rfl
  rw [hout]
  constructor
  · exact List.length_map _ _
  · have hR : ∀ n : NoteEvent,
        (remapNote (build_gm_to_rs drums) n).start_tick = n.start_tick ∧
        (remapNote (build_gm_to_rs drums) n).end_tick = n.end_tick ∧
        (remapNote (build_gm_to_rs drums) n).velocity = n.velocity ∧
        (remapNote (build_gm_to_rs drums) n).channel = n.channel ∧
        (remapNote (build_gm_to_rs drums) n).track_index = n.track_index ∧
        (n.channel ≠ 9 → remapNote (build_gm_to_rs drums) n = n) := by
      intro n
      obtain ⟨s, e, pi, v, ch, t⟩ := n
      by_cases h9 : ch = 9
      · rcases hget : dictGet (build_gm_to_rs drums) pi with _ | q <;>
          simp [remapNote, h9, hget]
      · simp [remapNote, h9]
    have hforall : ∀ l : List NoteEvent,
        List.Forall₂
          (fun n' n => n'.start_tick = n.start_tick ∧ n'.end_tick = n.end_tick ∧
            n'.velocity = n.velocity ∧ n'.channel = n.channel ∧
            n'.track_index = n.track_index ∧ (n.channel ≠ 9 → n' = n))
          (l.map (remapNote (build_gm_to_rs drums))) l := by
      intro l
      induction l with
      | nil => exact List.Forall₂.nil
      | cons n rest ih => exact List.Forall₂.cons (hR n) ih
    exact hforall notes

/-- Counterexample to C7 as stated: for the drumset mapping note 38 to
category "hihat" and note 42 to category "snare", the derived map is
\x7b38↦42, 40↦42, 42↦38, 46↦38\x7d, so a channel-9 note of pitch 38 is
rewritten to 42 by the first pass and back to 38 by the second: the second
pass reports `changed = 1`, not 0, and the pitches differ between passes. -/
theorem drum_remap_idempotence_cex :
    (remap_channel_9_notes_in_place
        (remap_channel_9_notes_in_place [⟨0, 1, 38, 64, 9, 0⟩]
          [(38, ⟨"X", "hihat"⟩), (42, ⟨"Y", "snare"⟩)]).2.2
        [(38, ⟨"X", "hihat"⟩), (42, ⟨"Y", "snare"⟩)]).1 = 1 ∧
    (1 : Nat) ≠ 0 ∧
    (remap_channel_9_notes_in_place [⟨0, 1, 38, 64, 9, 0⟩]
        [(38, ⟨"X", "hihat"⟩), (42, ⟨"Y", "snare"⟩)]).2.2.map (·.pitch) = [42] ∧
    (remap_channel_9_notes_in_place
        (remap_channel_9_notes_in_place [⟨0, 1, 38, 64, 9, 0⟩]
          [(38, ⟨"X", "hihat"⟩), (42, ⟨"Y", "snare"⟩)]).2.2
        [(38, ⟨"X", "hihat"⟩), (42, ⟨"Y", "snare"⟩)]).2.2.map (·.pitch) = [38] := by
  refine ⟨by decide, by decide, by decide, by decide⟩

theorem dictGet_mem_snd {κ α : Type} [DecidableEq κ] (m : List (κ × α)) (k : κ) (v : α)
    (h : dictGet m k = some v) : v ∈ m.map Prod.snd := by
  induction m with
  | nil => simp [dictGet] at h
  | cons hd tl ih =>
    rw [dictGet] at h
    by_cases h1 : k = hd.1
    · rw [if_pos h1] at h
      injection h with h
      exact List.mem_map.2 ⟨hd, List.mem_cons_self _ _, h⟩
    · rw [if_neg h1] at h
      exact List.mem_cons_of_mem _ (ih h)

theorem remap_notes_eq_map (notes : List NoteEvent) (drums : List (Int × DrumInfo)) :
    (remap_channel_9_notes_in_place notes drums).2.2
      = notes.map (remapNote (build_gm_to_rs drums)) := by
  unfold remap_channel_9_notes_in_place
  rw [remapFold_notes]
  rfl

theorem remap_changed_eq_sum (notes : List NoteEvent) (drums : List (Int × DrumInfo)) :
    (remap_channel_9_notes_in_place notes drums).1
      = (notes.map (remapChangedInc (build_gm_to_rs drums))).sum := by
  unfold remap_channel_9_notes_in_place
  rw [remapFold_changed]
  exact Nat.zero_add _

/-- Claim C7 (amended): for drumsets whose derived source-to-target mapping
sends every pitch in its own range either to itself or to no target at all
(which holds for drumsets whose category assignment agrees with GM on the
mapped notes, but not for arbitrary drumsets — see the counterexample),
applying the remap a second time changes nothing: the note list is
identical and the second `changed` count is zero. -/
theorem drum_remap_idempotent_of_fixed (notes : List NoteEvent)
    (drums : List (Int × DrumInfo))
    (hfix : ∀ q ∈ (build_gm_to_rs drums).map Prod.snd,
        dictGet (build_gm_to_rs drums) q = some q ∨
        dictGet (build_gm_to_rs drums) q = none) :
    (remap_channel_9_notes_in_place
        (remap_channel_9_notes_in_place notes drums).2.2 drums).2.2
      = (remap_channel_9_notes_in_place notes drums).2.2 ∧
    (remap_channel_9_notes_in_place
        (remap_channel_9_notes_in_place notes drums).2.2 drums).1 = 0 := by
  have hkey : ∀ n : NoteEvent,
      remapNote (build_gm_to_rs drums) (remapNote (build_gm_to_rs drums) n)
        = remapNote (build_gm_to_rs drums) n ∧
      remapChangedInc (build_gm_to_rs drums) (remapNote (build_gm_to_rs drums) n) = 0 := by
    intro n
    obtain ⟨s, e, pi, v, ch, t⟩ := n
    by_cases h9 : ch = 9
    · rcases hget : dictGet (build_gm_to_rs drums) pi with _ | q
      · simp [remapNote, remapChangedInc, h9, hget]
      · rcases hfix q (dictGet_mem_snd _ _ _ hget) with hq | hq <;>
          simp [remapNote, remapChangedInc, h9, hget, hq]
    · simp [remapNote, remapChangedInc, h9]
  constructor
  · rw [remap_notes_eq_map, remap_notes_eq_map, List.map_map]
    exact List.map_congr_left fun n _ => (hkey n).1
  · rw [remap_changed_eq_sum, remap_notes_eq_map, List.map_map]
    apply List.sum_eq_zero
    intro x hx
    rcases List.mem_map.1 hx with ⟨n, -, rfl⟩
    exact (hkey n).2

/-- Witness for the amended C7 on a GM-compatible drumset and a mixed note
list. -/
theorem drum_remap_idempotent_witness :
    (remap_channel_9_notes_in_place
        (remap_channel_9_notes_in_place
          [⟨0, 1, 35, 64, 9, 0⟩, ⟨0, 1, 40, 64, 9, 0⟩, ⟨0, 1, 50, 64, 0, 0⟩,
           ⟨0, 1, 77, 64, 9, 0⟩]
          [(36, ⟨"Kick", "kick"⟩), (38, ⟨"Snare", "snare"⟩)]).2.2
        [(36, ⟨"Kick", "kick"⟩), (38, ⟨"Snare", "snare"⟩)]).2.2
      = (remap_channel_9_notes_in_place
          [⟨0, 1, 35, 64, 9, 0⟩, ⟨0, 1, 40, 64, 9, 0⟩, ⟨0, 1, 50, 64, 0, 0⟩,
           ⟨0, 1, 77, 64, 9, 0⟩]
          [(36, ⟨"Kick", "kick"⟩), (38, ⟨"Snare", "snare"⟩)]).2.2 ∧
    (remap_channel_9_notes_in_place
        (remap_channel_9_notes_in_place
          [⟨0, 1, 35, 64, 9, 0⟩, ⟨0, 1, 40, 64, 9, 0⟩, ⟨0, 1, 50, 64, 0, 0⟩,
           ⟨0, 1, 77, 64, 9, 0⟩]
          [(36, ⟨"Kick", "kick"⟩), (38, ⟨"Snare", "snare"⟩)]).2.2
        [(36, ⟨"Kick", "kick"⟩), (38, ⟨"Snare", "snare"⟩)]).1 = 0 :=
  drum_remap_idempotent_of_fixed _ _ (by decide)
